import Mathlib

/-!
Verification of the brno-grep line-matching utility (src/brno-grep.py).

The program scans input lines with `re.finditer`, and renders matching lines
in one of four modes (plain, highlighted with ANSI colours, underscored,
machine-readable).  This file is a shallow embedding of the per-line scan
loop, the four renderer classes and the `__main__` driver, over `List Char`
strings, together with proofs of the specified properties.

The regex engine itself is an external collaborator: it is represented by a
`PyPattern`, a deterministic "attempt a match at position `pos`" function
returning the end offset of the match found there (Python's `re` guarantees
`pos ≤ end ≤ len`).  The scan loop (`re.finditer`) and the substitution loop
(`re.sub`, used by the highlighted renderer) are embedded faithfully,
including Python 2's zero-length-match advancement rules: `finditer` advances
by one position after an empty match, and `sub` replaces an empty match only
when it is not adjacent to the previous replaced match.
-/

namespace BrnoGrep

/-- The ASCII escape character `\x1b` used by the ANSI colour sequences. -/
def escChar : Char := Char.ofNat 27

/-- The ASCII space character. -/
def spChar : Char := Char.ofNat 32

/-- `RESET_SEQ = '\033[0m'` from the source. -/
def RESET_SEQ : List Char := escChar :: "[0m".toList

/-- `COLOR_SEQ = '\033[95m'` from the source. -/
def COLOR_SEQ : List Char := escChar :: "[95m".toList

/-- `UNDERSCORE_CHARACTER = "^"` from the source. -/
def UNDERSCORE_CHARACTER : Char := '^'

/-- The characters removed by Python's `str.rstrip()` with no argument. -/
def isPySpace (c : Char) : Bool :=
  c = spChar ∨ c = Char.ofNat 9 ∨ c = Char.ofNat 10 ∨ c = Char.ofNat 13 ∨
    c = Char.ofNat 11 ∨ c = Char.ofNat 12

/-- Python's `s.rstrip()`: remove trailing whitespace. -/
def rstrip (l : List Char) : List Char := (l.reverse.dropWhile isPySpace).reverse

/-- Python's slice `s[a:b]` (for `0 ≤ a ≤ b`). -/
def slice (l : List Char) (a b : Nat) : List Char := (l.drop a).take (b - a)

/-- Python's `sep.join(xs)`. -/
def joinWith (sep : List Char) : List (List Char) → List Char
  | [] => []
  | [x] => x
  | x :: y :: rest => x ++ sep ++ joinWith sep (y :: rest)

/-- One step of decimal formatting: fuelled so that it evaluates by `decide`. -/
def natCharsGo : Nat → Nat → List Char → List Char
  | 0, _, acc => acc
  | fuel + 1, n, acc =>
    if n < 10 then Char.ofNat (48 + n) :: acc
    else natCharsGo fuel (n / 10) (Char.ofNat (48 + n % 10) :: acc)

/-- Python's `str(n)` for a natural number (decimal digits). -/
def natChars (n : Nat) : List Char := natCharsGo (n + 1) n []

/-- Python's `'{:4d}'.format(n)`: right-aligned in a field of width 4. -/
def fmt4 (n : Nat) : List Char :=
  List.replicate (4 - (natChars n).length) spChar ++ natChars n

/--
A pre-validated compiled pattern (the result of `re.compile`), abstracted as
the regex engine's deterministic "match attempt at position `pos`" function:
`matchAt line pos = some e` means the engine finds a match spanning
`[pos, e)`, and `none` means no match starts at `pos`.  The `re` engine
guarantees `pos ≤ e ≤ line.length`.
-/
structure PyPattern where
  matchAt : List Char → Nat → Option Nat
  wf : ∀ l p e, matchAt l p = some e → p ≤ e ∧ e ≤ l.length

/--
A Python match object as used by the renderers: `.string` is the whole line
the pattern was applied to, and `.span() = (start, stop)`.
-/
structure MatchObj where
  string : List Char
  start : Nat
  stop : Nat
  deriving DecidableEq

/-- `m.span()`. -/
def MatchObj.span (m : MatchObj) : Nat × Nat := (m.start, m.stop)

/--
The `re.finditer` scan loop (line 182 of the source:
`[_ for _ in re.finditer(regexp, line)]`): repeatedly attempt a match at
`pos`; after a zero-length match advance by one position, after a non-empty
match continue at its end, after a failed attempt try the next position.
Fuelled (each step strictly increases `pos`) so that it evaluates by
`decide`.
-/
def finditerGo (pat : PyPattern) (line : List Char) : Nat → Nat → List MatchObj
  | 0, _ => []
  | fuel + 1, pos =>
    if line.length < pos then []
    else
      match pat.matchAt line pos with
      | some e =>
          ⟨line, pos, e⟩ ::
            finditerGo pat line fuel (if e = pos then pos + 1 else e)
      | none => finditerGo pat line fuel (pos + 1)

/-- `Matcher.find`: all non-overlapping matches of `pat` on `line`. -/
def finditer (pat : PyPattern) (line : List Char) : List MatchObj :=
  finditerGo pat line (line.length + 2) 0

theorem finditerGo_zero (pat : PyPattern) (line : List Char) (pos : Nat) :
    finditerGo pat line 0 pos = [] := rfl

theorem finditerGo_succ (pat : PyPattern) (line : List Char) (fuel pos : Nat) :
    finditerGo pat line (fuel + 1) pos =
      if line.length < pos then []
      else
        match pat.matchAt line pos with
        | some e =>
            ⟨line, pos, e⟩ ::
              finditerGo pat line fuel (if e = pos then pos + 1 else e)
        | none => finditerGo pat line fuel (pos + 1) := rfl

/-- A literal (regex-metacharacter-free) pattern, e.g. `ab`. -/
def litMatcher (p : List Char) : PyPattern where
  matchAt l pos :=
    if pos ≤ l.length ∧ (l.drop pos).take p.length = p then some (pos + p.length)
    else none
  wf := by
    intro l pos e h
    dsimp only at h
    by_cases hc : pos ≤ l.length ∧ (l.drop pos).take p.length = p
    · rw [if_pos hc, Option.some.injEq] at h
      obtain ⟨hpos, htake⟩ := hc
      have hlen : ((l.drop pos).take p.length).length = p.length := by rw [htake]
      rw [List.length_take, List.length_drop] at hlen
      omega
    · rw [if_neg hc] at h
      exact Option.noConfusion h

/-- The greedy star of a single character, e.g. `a*`. -/
def starMatcher (c : Char) : PyPattern where
  matchAt l pos :=
    if pos ≤ l.length then
      some (pos + ((l.drop pos).takeWhile (fun x => x = c)).length)
    else none
  wf := by
    intro l pos e h
    dsimp only at h
    by_cases hc : pos ≤ l.length
    · rw [if_pos hc, Option.some.injEq] at h
      have hle : ((l.drop pos).takeWhile (fun x => decide (x = c))).length ≤
          (l.drop pos).length := (List.takeWhile_sublist _).length_le
      rw [List.length_drop] at hle
      omega
    · rw [if_neg hc] at h
      exact Option.noConfusion h

/--
Master invariant of the scan loop: every produced match carries the scanned
line as its `.string`, lies within the line and starts at or after the scan
position; matches are pairwise sorted by start offset and non-overlapping;
and at most `len + 1 - pos` matches are produced.
-/
theorem finditerGo_spec (pat : PyPattern) (line : List Char) :
    ∀ fuel pos,
      (∀ m ∈ finditerGo pat line fuel pos,
          pos ≤ m.start ∧ m.start ≤ m.stop ∧ m.stop ≤ line.length ∧
            m.string = line) ∧
        List.Pairwise (fun a b => a.start < b.start ∧ a.stop ≤ b.start)
          (finditerGo pat line fuel pos) ∧
        (finditerGo pat line fuel pos).length ≤ line.length + 1 - pos := by
  intro fuel
  induction fuel with
  | zero => intro pos; simp [finditerGo_zero]
  | succ fuel ih =>
    intro pos
    by_cases hpos : line.length < pos
    · rw [finditerGo_succ, if_pos hpos]
      simp
    · rcases hm : pat.matchAt line pos with _ | e
      · simp only [finditerGo_succ, if_neg hpos, hm]
        obtain ⟨ha, hb, hc⟩ := ih (pos + 1)
        refine ⟨fun m hmem => ?_, hb, by omega⟩
        have h := ha m hmem
        exact ⟨by omega, h.2.1, h.2.2.1, h.2.2.2⟩
      · have hwf := pat.wf line pos e hm
        simp only [finditerGo_succ, if_neg hpos, hm]
        obtain ⟨ha, hb, hc⟩ := ih (if e = pos then pos + 1 else e)
        have hstep : pos + 1 ≤ (if e = pos then pos + 1 else e) ∧
            e ≤ (if e = pos then pos + 1 else e) := by
          split <;> omega
        refine ⟨?_, ?_, ?_⟩
        · intro m hmem
          rcases List.mem_cons.mp hmem with rfl | hmem
          · exact ⟨le_refl _, hwf.1, hwf.2, rfl⟩
          · have h := ha m hmem
            exact ⟨by omega, h.2.1, h.2.2.1, h.2.2.2⟩
        · refine List.pairwise_cons.mpr ⟨fun b hbmem => ?_, hb⟩
          have h := ha b hbmem
          refine ⟨?_, ?_⟩
          · show pos < b.start
            omega
          · show e ≤ b.start
            omega
        · simp only [List.length_cons]
          omega

/-! ### Slice algebra -/

theorem take_split (l : List Char) : ∀ (m k : Nat),
    l.take (m + k) = l.take m ++ (l.drop m).take k := by
  induction l with
  | nil => intro m k; simp
  | cons a t ih =>
    intro m k
    cases m with
    | zero => simp
    | succ m =>
      have : m + 1 + k = (m + k) + 1 := by omega
      rw [this]
      simp only [List.take_succ_cons, List.drop_succ_cons, ih m k,
        List.cons_append]

theorem slice_append_slice (l : List Char) {a b c : Nat} (hab : a ≤ b)
    (hbc : b ≤ c) : slice l a b ++ slice l b c = slice l a c := by
  unfold slice
  have hdrop : l.drop b = (l.drop a).drop (b - a) := by
    rw [List.drop_drop]
    congr 1
    omega
  rw [hdrop]
  have hsum : c - a = (b - a) + (c - b) := by omega
  rw [hsum, take_split]

theorem slice_to_end (l : List Char) (a : Nat) : slice l a l.length = l.drop a := by
  unfold slice
  have h : l.length - a = (l.drop a).length := by rw [List.length_drop]
  rw [h, List.take_length]

/-! ### C1: matches are sorted and non-overlapping -/

/--
C1: for every input line and every pre-validated pattern, `Matcher.find`
(the per-line `re.finditer` scan) returns all non-overlapping matches in
left-to-right order: spans are sorted strictly ascending by start offset and
no two spans overlap (each span's end is at most the next span's start).
-/
theorem find_sorted_nonoverlapping (pat : PyPattern) (line : List Char) :
    List.Pairwise (fun a b => a.start < b.start ∧ a.stop ≤ b.start)
      (finditer pat line) :=
  (finditerGo_spec pat line (line.length + 2) 0).2.1

/-- Bounds on every match returned by `finditer`. -/
theorem finditer_bounds (pat : PyPattern) (line : List Char) :
    ∀ m ∈ finditer pat line,
      m.start ≤ m.stop ∧ m.stop ≤ line.length ∧ m.string = line := by
  intro m hm
  have h := (finditerGo_spec pat line (line.length + 2) 0).1 m hm
  exact ⟨h.2.1, h.2.2.1, h.2.2.2⟩

/-! ### C2: round-trip reconstruction -/

/--
The spec's round-trip partition: interleave, in order, the non-match gap
substrings and the matched texts determined by the returned spans.
-/
def reconstructGo (line : List Char) (pos : Nat) : List MatchObj → List Char
  | [] => slice line pos line.length
  | m :: rest => slice line pos m.start ++ slice line m.start m.stop ++
      reconstructGo line m.stop rest

/-- Concatenation of all gaps and matched texts, starting at offset 0. -/
def reconstruct (line : List Char) (ms : List MatchObj) : List Char :=
  reconstructGo line 0 ms

theorem reconstructGo_eq (line : List Char) :
    ∀ (ms : List MatchObj) (pos : Nat), pos ≤ line.length →
      (∀ m ∈ ms, pos ≤ m.start ∧ m.start ≤ m.stop ∧ m.stop ≤ line.length) →
      List.Pairwise (fun a b => a.start < b.start ∧ a.stop ≤ b.start) ms →
      reconstructGo line pos ms = line.drop pos := by
  intro ms
  induction ms with
  | nil => intro pos _ _ _; exact slice_to_end line pos
  | cons m rest ih =>
    intro pos _ hb hp
    obtain ⟨hm, hrest⟩ := List.pairwise_cons.mp hp
    obtain ⟨h1, h2, h3⟩ := hb m (List.mem_cons_self m rest)
    have hrec : reconstructGo line m.stop rest = line.drop m.stop := by
      refine ih m.stop h3 ?_ hrest
      intro x hx
      obtain ⟨_, hq2, hq3⟩ := hb x (List.mem_cons_of_mem m hx)
      exact ⟨(hm x hx).2, hq2, hq3⟩
    simp only [reconstructGo]
    rw [hrec, slice_append_slice line h1 h2, ← slice_to_end line m.stop,
      slice_append_slice line (by omega) h3, slice_to_end]

/--
C2: round-trip reconstruction — for every line on which `Matcher.find`
returns a non-empty match list, concatenating, in order, the non-match gap
substrings and the matched texts (as partitioned by the returned spans)
yields exactly the original line.
-/
theorem find_round_trip (pat : PyPattern) (line : List Char)
    (_hne : finditer pat line ≠ []) :
    reconstruct line (finditer pat line) = line := by
  have h := finditerGo_spec pat line (line.length + 2) 0
  have heq := reconstructGo_eq line (finditer pat line) 0 (by omega)
    (fun m hm => by
      have := h.1 m hm
      exact ⟨by omega, this.2.1, this.2.2.1⟩)
    h.2.1
  rw [reconstruct, heq, List.drop_zero]

/-- Witness for C2 at a concrete pattern and line. -/
theorem find_round_trip_witness :
    reconstruct "xabyab".toList
        (finditer (litMatcher "ab".toList) "xabyab".toList)
      = "xabyab".toList :=
  find_round_trip (litMatcher "ab".toList) "xabyab".toList (by decide)

/-! ### C8: zero-length match policy -/

/--
C8: zero-length match policy — for every pattern (including ones matching
the empty string) and every line, the per-line scan makes forward progress
and terminates with a finite match list: at most `len + 1` matches, with
strictly increasing start offsets; concretely, the pattern `a*` applied to
the line `bbb` yields exactly the four empty spans at offsets 0, 1, 2, 3.
-/
theorem zero_length_match_progress (pat : PyPattern) (line : List Char) :
    (finditer pat line).length ≤ line.length + 1 ∧
      List.Pairwise (fun a b => a.start < b.start) (finditer pat line) ∧
      (finditer (starMatcher 'a') "bbb".toList).map MatchObj.span
        = [(0, 0), (1, 1), (2, 2), (3, 3)] := by
  refine ⟨?_, ?_, by decide⟩
  · have := (finditerGo_spec pat line (line.length + 2) 0).2.2
    rw [finditer]
    omega
  · exact ((finditerGo_spec pat line (line.length + 2) 0).2.1).imp
      (fun h => h.1)

/-! ### Renderers: plain and machine modes -/

/-- Default match object (only used for the `matches[0]` head access). -/
def MatchObj.dflt : MatchObj := ⟨[], 0, 0⟩

theorem headD_mem {α : Type} {l : List α} (d : α) (h : l ≠ []) :
    l.headD d ∈ l := by
  cases l with
  | nil => exact absurd rfl h
  | cons a rest => simp

/--
`PlainOutput.show_line`: print `f_name`, the line number formatted with
`'{:4d}'`, and `matches[0].string`, joined by single spaces and
right-stripped.
-/
def PlainOutput.show_line (f_name : List Char) (line_no : Nat)
    (ms : List MatchObj) : List Char :=
  rstrip (joinWith " ".toList
    [f_name, fmt4 line_no, (ms.headD MatchObj.dflt).string])

/--
`MachineOutput.show_line`: one printed record per match,
`':'.join([f_name, str(line_no), str(start_pos), match.string[start_pos:end_pos]])`.
-/
def MachineOutput.show_line (f_name : List Char) (line_no : Nat)
    (ms : List MatchObj) : List (List Char) :=
  ms.map fun m =>
    joinWith ":".toList
      [f_name, natChars line_no, natChars m.start,
        slice m.string m.start m.stop]

/-! ### C3: machine mode emits one colon-delimited record per match -/

/--
C3: machine mode — for every line with N matches, `MachineOutput.show_line`
emits exactly N records, one per match in match order, each of the form
`source_name:line_number:start_offset:matched_text` with the 0-based decimal
start offset and the literal matched substring; in particular pattern `ab`
on line `xabyab` from source `f` line 3 emits `f:3:1:ab` then `f:3:4:ab`.
-/
theorem machine_output_records (pat : PyPattern) (line f_name : List Char)
    (line_no : Nat) :
    (MachineOutput.show_line f_name line_no (finditer pat line)).length
        = (finditer pat line).length
    ∧ (∀ i, i < (finditer pat line).length →
        (MachineOutput.show_line f_name line_no (finditer pat line)).getD i []
          = f_name ++ ":".toList ++ natChars line_no ++ ":".toList ++
              natChars ((finditer pat line).getD i MatchObj.dflt).start ++
              ":".toList ++
              slice line ((finditer pat line).getD i MatchObj.dflt).start
                ((finditer pat line).getD i MatchObj.dflt).stop)
    ∧ MachineOutput.show_line "f".toList 3
          (finditer (litMatcher "ab".toList) "xabyab".toList)
        = ["f:3:1:ab".toList, "f:3:4:ab".toList] := by
  refine ⟨List.length_map _ _, ?_, by decide⟩
  intro i hi
  have hmap : i < (MachineOutput.show_line f_name line_no
      (finditer pat line)).length := by
    simp only [MachineOutput.show_line, List.length_map]
    exact hi
  rw [List.getD_eq_getElem _ _ hmap, List.getD_eq_getElem _ _ hi]
  simp only [MachineOutput.show_line, List.getElem_map]
  have hstr : ((finditer pat line)[i]).string = line :=
    (finditer_bounds pat line _ (List.getElem_mem _)).2.2
  rw [hstr]
  simp [joinWith, List.append_assoc]

/-- Witness for C3's per-record format at a concrete input. -/
theorem machine_output_records_witness :
    (MachineOutput.show_line "f".toList 3
        (finditer (litMatcher "ab".toList) "xabyab".toList)).getD 0 []
      = "f".toList ++ ":".toList ++ natChars 3 ++ ":".toList ++
          natChars ((finditer (litMatcher "ab".toList) "xabyab".toList).getD 0
            MatchObj.dflt).start ++ ":".toList ++
          slice "xabyab".toList
            ((finditer (litMatcher "ab".toList) "xabyab".toList).getD 0
              MatchObj.dflt).start
            ((finditer (litMatcher "ab".toList) "xabyab".toList).getD 0
              MatchObj.dflt).stop :=
  (machine_output_records (litMatcher "ab".toList) "xabyab".toList
    "f".toList 3).2.1 0 (by decide)

/-! ### C10: every match carries the full original line -/

/--
C10: every match object handed to a renderer carries the full scanned line
in its `.string` field, and the plain renderer recovers the raw line text
from `matches[0].string`; the rendered content is therefore the same no
matter which match in the set is consulted.
-/
theorem matches_carry_line (pat : PyPattern) (line f_name : List Char)
    (line_no : Nat) :
    (∀ m ∈ finditer pat line, m.string = line) ∧
      (∀ i : Fin (finditer pat line).length,
        ((finditer pat line).get i).string = line) ∧
      ∀ i : Fin (finditer pat line).length,
        PlainOutput.show_line f_name line_no (finditer pat line)
          = rstrip (joinWith " ".toList
              [f_name, fmt4 line_no, ((finditer pat line).get i).string]) := by
  have hstr : ∀ m ∈ finditer pat line, m.string = line := fun m hm =>
    (finditer_bounds pat line m hm).2.2
  refine ⟨hstr, fun i => hstr _ (List.get_mem _ _ i.2), fun i => ?_⟩
  have hne : finditer pat line ≠ [] :=
    List.length_pos.mp (Nat.lt_of_le_of_lt (Nat.zero_le _) i.2)
  have h1 : ((finditer pat line).get i).string = line :=
    hstr _ (List.get_mem _ _ i.2)
  have h2 : ((finditer pat line).headD MatchObj.dflt).string = line :=
    hstr _ (headD_mem _ hne)
  simp only [PlainOutput.show_line]
  rw [h1, h2]

/-- Witness for C10 at a concrete pattern, line and match. -/
theorem matches_carry_line_witness :
    (⟨"xabyab".toList, 1, 3⟩ : MatchObj).string = "xabyab".toList :=
  (matches_carry_line (litMatcher "ab".toList) "xabyab".toList
    "f".toList 3).1 ⟨"xabyab".toList, 1, 3⟩ (by decide)

/-! ### Highlighted mode: the re.sub marker-injection pass -/

/--
The `re.sub` loop used by `HighlightedOutput.show_line` (line 72 of the
source): scan positions left to right; on a failed match attempt copy one
character; replace a found match by `COLOR_SEQ ++ matched text ++
RESET_SEQ`; per Python 2's rule an empty match adjacent to the previous
replaced match (its start equals that match's end) is not replaced — the
character there is copied instead.  Fuelled so that it evaluates by
`decide`.
-/
def pySubGo (pat : PyPattern) (line : List Char) :
    Nat → Nat → Option Nat → List Char
  | 0, _, _ => []
  | fuel + 1, pos, lastEnd =>
    if line.length < pos then []
    else
      match pat.matchAt line pos with
      | some e =>
          if e = pos ∧ lastEnd = some pos then
            slice line pos (pos + 1) ++ pySubGo pat line fuel (pos + 1) lastEnd
          else
            COLOR_SEQ ++ slice line pos e ++ RESET_SEQ ++
              pySubGo pat line fuel e (some e)
      | none =>
          slice line pos (pos + 1) ++ pySubGo pat line fuel (pos + 1) lastEnd

/-- `re.sub(regexp, COLOR_SEQ + matched + RESET_SEQ, line)`. -/
def pySub (pat : PyPattern) (line : List Char) : List Char :=
  pySubGo pat line (2 * (line.length + 2)) 0 none

theorem pySubGo_zero (pat : PyPattern) (line : List Char) (pos : Nat)
    (lastEnd : Option Nat) : pySubGo pat line 0 pos lastEnd = [] := rfl

theorem pySubGo_succ (pat : PyPattern) (line : List Char) (fuel pos : Nat)
    (lastEnd : Option Nat) :
    pySubGo pat line (fuel + 1) pos lastEnd =
      if line.length < pos then []
      else
        match pat.matchAt line pos with
        | some e =>
            if e = pos ∧ lastEnd = some pos then
              slice line pos (pos + 1) ++
                pySubGo pat line fuel (pos + 1) lastEnd
            else
              COLOR_SEQ ++ slice line pos e ++ RESET_SEQ ++
                pySubGo pat line fuel e (some e)
        | none =>
            slice line pos (pos + 1) ++
              pySubGo pat line fuel (pos + 1) lastEnd := rfl

/--
`HighlightedOutput.show_line`: print `f_name`, the formatted line number and
`re.sub('(' + regexp + ')', COLOR_SEQ + r'\1' + RESET_SEQ,
matches[0].string)`, joined by single spaces and right-stripped.  (Wrapping
the pattern in a plain group does not change what the engine matches, so
both passes consult the same `PyPattern`.)
-/
def HighlightedOutput.show_line (pat : PyPattern) (f_name : List Char)
    (line_no : Nat) (ms : List MatchObj) : List Char :=
  rstrip (joinWith " ".toList
    [f_name, fmt4 line_no, pySub pat (ms.headD MatchObj.dflt).string])

/--
Removal of every occurrence of the two injected marker escape sequences
(`COLOR_SEQ` and `RESET_SEQ`) from a string.
-/
def stripMarkers : List Char → List Char
  | a :: b :: c :: d :: e :: rest =>
    if [a, b, c, d, e] = COLOR_SEQ then stripMarkers rest
    else if [a, b, c, d] = RESET_SEQ then stripMarkers (e :: rest)
    else a :: stripMarkers (b :: c :: d :: e :: rest)
  | a :: b :: c :: d :: [] =>
    if [a, b, c, d] = RESET_SEQ then []
    else a :: stripMarkers [b, c, d]
  | a :: rest => a :: stripMarkers rest
  | [] => []

theorem stripMarkers_color (l : List Char) :
    stripMarkers (COLOR_SEQ ++ l) = stripMarkers l := rfl

theorem stripMarkers_reset : ∀ l : List Char,
    stripMarkers (RESET_SEQ ++ l) = stripMarkers l
  | [] => rfl
  | _ :: _ => rfl

theorem stripMarkers_cons_ne (a : Char) (l : List Char) (hc : a ≠ escChar) :
    stripMarkers (a :: l) = a :: stripMarkers l := by
  match l with
  | [] => rfl
  | [b] => rfl
  | [b, c] => rfl
  | [b, c, d] =>
    have hne : ¬([a, b, c, d] = RESET_SEQ) := by
      intro h
      rw [RESET_SEQ] at h
      injection h with h1 _
      exact hc h1
    simp only [stripMarkers]
    rw [if_neg hne]
  | b :: c :: d :: e :: rest =>
    have hne1 : ¬([a, b, c, d, e] = COLOR_SEQ) := by
      intro h
      rw [COLOR_SEQ] at h
      injection h with h1 _
      exact hc h1
    have hne2 : ¬([a, b, c, d] = RESET_SEQ) := by
      intro h
      rw [RESET_SEQ] at h
      injection h with h1 _
      exact hc h1
    simp only [stripMarkers]
    rw [if_neg hne1, if_neg hne2]

theorem stripMarkers_append_free (l₁ l₂ : List Char)
    (h : ∀ c ∈ l₁, c ≠ escChar) :
    stripMarkers (l₁ ++ l₂) = l₁ ++ stripMarkers l₂ := by
  induction l₁ with
  | nil => simp
  | cons a t ih =>
    rw [List.cons_append,
      stripMarkers_cons_ne a (t ++ l₂) (h a (List.mem_cons_self a t)),
      ih (fun c hc => h c (List.mem_cons_of_mem a hc)), List.cons_append]

/-- Membership in a slice implies membership in the list. -/
theorem mem_of_mem_slice {c : Char} {l : List Char} {a b : Nat}
    (h : c ∈ slice l a b) : c ∈ l :=
  List.drop_subset a l (List.take_subset _ _ h)

/-- Sufficient fuel for the substitution loop from state `(pos, lastEnd)`. -/
def subFuel (line : List Char) (pos : Nat) (lastEnd : Option Nat) : Nat :=
  2 * (line.length + 1 - pos) + (if lastEnd = some pos then 0 else 1)

theorem slice_of_le (l : List Char) {a : Nat} (b : Nat) (h : l.length ≤ a) :
    slice l a b = [] := by
  rw [slice, List.drop_of_length_le h, List.take_nil]

theorem slice_single (l : List Char) {pos : Nat} (h : pos < l.length) :
    slice l pos (pos + 1) = [l[pos]] := by
  rw [slice]
  have h1 : pos + 1 - pos = 1 := by omega
  rw [h1, List.drop_eq_getElem_cons h]
  rfl

theorem slice_append_drop (l : List Char) {a b : Nat} (hab : a ≤ b)
    (hb : b ≤ l.length) : slice l a b ++ l.drop b = l.drop a := by
  rw [← slice_to_end l b, slice_append_slice l hab hb, slice_to_end]

theorem slice_one_append (l : List Char) (pos : Nat) (h : pos ≤ l.length) :
    slice l pos (pos + 1) ++ l.drop (pos + 1) = l.drop pos := by
  rcases Nat.lt_or_ge pos l.length with hlt | hge
  · exact slice_append_drop l (by omega) (by omega)
  · have h0 : l.drop pos = [] := List.drop_of_length_le hge
    have h1 : l.drop (pos + 1) = [] := List.drop_of_length_le (by omega)
    rw [slice_of_le l _ hge, h0, h1]
    rfl

/-! ### rstrip lemmas -/

theorem rstrip_append (a b : List Char) (h : rstrip b ≠ []) :
    rstrip (a ++ b) = a ++ rstrip b := by
  have hne : ¬((b.reverse.dropWhile isPySpace).isEmpty = true) := by
    intro hcon
    refine h ?_
    show (b.reverse.dropWhile isPySpace).reverse = []
    rw [List.isEmpty_iff.mp hcon]
    rfl
  show ((a ++ b).reverse.dropWhile isPySpace).reverse = a ++ rstrip b
  rw [List.reverse_append, List.dropWhile_append, if_neg hne,
    List.reverse_append, List.reverse_reverse]
  rfl

theorem rstrip_space_concat (x : List Char) (c : Char)
    (hc : isPySpace c = true) : rstrip (x ++ [c]) = rstrip x := by
  show ((x ++ [c]).reverse.dropWhile isPySpace).reverse = _
  have h1 : ([c] : List Char).reverse = [c] := rfl
  rw [List.reverse_append, h1, List.singleton_append,
    List.dropWhile_cons_of_pos hc]
  rfl

theorem rstrip_nonspace_concat (x : List Char) (c : Char)
    (hc : isPySpace c = false) : rstrip (x ++ [c]) = x ++ [c] := by
  show ((x ++ [c]).reverse.dropWhile isPySpace).reverse = _
  have h1 : ([c] : List Char).reverse = [c] := rfl
  rw [List.reverse_append, h1, List.singleton_append,
    List.dropWhile_cons_of_neg (by rw [hc]; intro hcon; cases hcon),
    List.reverse_cons, List.reverse_reverse]

theorem length_rstrip_le (l : List Char) : (rstrip l).length ≤ l.length := by
  rw [rstrip, List.length_reverse]
  calc (l.reverse.dropWhile isPySpace).length
      ≤ l.reverse.length := (List.dropWhile_sublist _).length_le
    _ = l.length := List.length_reverse l

theorem last_not_space (l : List Char) (hl : rstrip l = l) (hne : l ≠ []) :
    isPySpace (l.getLast hne) = false := by
  cases hc : isPySpace (l.getLast hne)
  · rfl
  · exfalso
    have hsplit := List.dropLast_append_getLast hne
    have heq := rstrip_space_concat l.dropLast (l.getLast hne) hc
    rw [hsplit, hl] at heq
    have hlen : l.length ≤ (rstrip l.dropLast).length := by rw [← heq]
    have hlen2 := length_rstrip_le l.dropLast
    rw [List.length_dropLast] at hlen2
    have hpos : 0 < l.length := List.length_pos.mpr hne
    omega

theorem rstrip_append_reset (x : List Char) :
    rstrip (x ++ RESET_SEQ) = x ++ RESET_SEQ := by
  have h : rstrip RESET_SEQ = RESET_SEQ := by decide
  rw [rstrip_append x RESET_SEQ (by rw [h]; decide), h]

/-! ### Decimal digits contain no escape character -/

theorem digit_ne_esc {k : Nat} (hk : k < 10) :
    Char.ofNat (48 + k) ≠ escChar := by
  interval_cases k <;> decide

theorem natCharsGo_succ (fuel n : Nat) (acc : List Char) :
    natCharsGo (fuel + 1) n acc =
      if n < 10 then Char.ofNat (48 + n) :: acc
      else natCharsGo fuel (n / 10) (Char.ofNat (48 + n % 10) :: acc) := rfl

theorem natCharsGo_ne_esc : ∀ (fuel n : Nat) (acc : List Char),
    (∀ c ∈ acc, c ≠ escChar) → ∀ c ∈ natCharsGo fuel n acc, c ≠ escChar := by
  intro fuel
  induction fuel with
  | zero => intro n acc hacc c hc; exact hacc c hc
  | succ fuel ih =>
    intro n acc hacc c hc
    rw [natCharsGo_succ] at hc
    by_cases hn : n < 10
    · rw [if_pos hn] at hc
      rcases List.mem_cons.mp hc with rfl | hc
      · exact digit_ne_esc hn
      · exact hacc c hc
    · rw [if_neg hn] at hc
      refine ih (n / 10) _ ?_ c hc
      intro d hd
      rcases List.mem_cons.mp hd with rfl | hd
      · exact digit_ne_esc (Nat.mod_lt n (by omega))
      · exact hacc d hd

theorem natChars_ne_esc (n : Nat) : ∀ c ∈ natChars n, c ≠ escChar :=
  natCharsGo_ne_esc (n + 1) n []
    (fun c hc => absurd hc (List.not_mem_nil c))

theorem fmt4_ne_esc (n : Nat) : ∀ c ∈ fmt4 n, c ≠ escChar := by
  intro c hc
  simp only [fmt4] at hc
  rcases List.mem_append.mp hc with hc | hc
  · have hcsp := List.eq_of_mem_replicate hc
    subst hcsp
    decide
  · exact natChars_ne_esc n c hc

/-! ### Stripping the markers from the substituted string recovers the line -/

theorem pySubGo_strip (pat : PyPattern) (line : List Char)
    (hesc : ∀ c ∈ line, c ≠ escChar) :
    ∀ fuel pos lastEnd, subFuel line pos lastEnd ≤ fuel →
      stripMarkers (pySubGo pat line fuel pos lastEnd) = line.drop pos := by
  intro fuel
  induction fuel with
  | zero =>
    intro pos lastEnd hf
    rw [pySubGo_zero]
    have hge : line.length < pos := by
      rw [subFuel] at hf
      split at hf <;> omega
    rw [List.drop_of_length_le (by omega)]
    rfl
  | succ fuel ih =>
    intro pos lastEnd hf
    by_cases hpos : line.length < pos
    · rw [pySubGo_succ, if_pos hpos, List.drop_of_length_le (by omega)]
      rfl
    · have hple : pos ≤ line.length := by omega
      have hslice : ∀ a b : Nat, ∀ c ∈ slice line a b, c ≠ escChar :=
        fun a b c hc => hesc c (mem_of_mem_slice hc)
      rcases hm : pat.matchAt line pos with _ | e
      · simp only [pySubGo_succ, if_neg hpos, hm]
        have hf' : subFuel line (pos + 1) lastEnd ≤ fuel := by
          rw [subFuel] at hf ⊢
          split at hf <;> split <;> omega
        rw [stripMarkers_append_free _ _ (hslice pos (pos + 1)),
          ih (pos + 1) lastEnd hf', slice_one_append line pos hple]
      · have hwf := pat.wf line pos e hm
        by_cases hadj : e = pos ∧ lastEnd = some pos
        · simp only [pySubGo_succ, if_neg hpos, hm, if_pos hadj]
          have hf' : subFuel line (pos + 1) lastEnd ≤ fuel := by
            obtain ⟨he, hle⟩ := hadj
            rw [subFuel] at hf ⊢
            rw [if_pos hle] at hf
            rw [if_neg (by
              rw [hle]
              intro hcon
              exact absurd (Option.some.inj hcon) (by omega))]
            omega
          rw [stripMarkers_append_free _ _ (hslice pos (pos + 1)),
            ih (pos + 1) lastEnd hf', slice_one_append line pos hple]
        · simp only [pySubGo_succ, if_neg hpos, hm, if_neg hadj]
          have hfe : subFuel line e (some e) ≤ fuel := by
            rw [subFuel] at hf ⊢
            rw [if_pos rfl]
            rcases Nat.lt_or_ge pos e with hlt | hge2
            · split at hf <;> omega
            · have he : e = pos := by omega
              subst he
              have hno : ¬(lastEnd = some e) := fun hcon => hadj ⟨rfl, hcon⟩
              rw [if_neg hno] at hf
              omega
          simp only [List.append_assoc]
          rw [stripMarkers_color,
            stripMarkers_append_free _ _ (hslice pos e),
            stripMarkers_reset, ih e (some e) hfe,
            slice_append_drop line hwf.1 hwf.2]

/-! ### The substituted string needs no right-stripping beyond the line's own -/

theorem copy_branch_aux (pat : PyPattern) (l : List Char)
    (hl : rstrip l = l) (hlne : l ≠ [])
    (fuel pos : Nat) (lastEnd : Option Nat)
    (IH : (pySubGo pat l fuel (pos + 1) lastEnd = [] →
            l.length ≤ pos + 1) ∧
          (pySubGo pat l fuel (pos + 1) lastEnd ≠ [] →
            rstrip (pySubGo pat l fuel (pos + 1) lastEnd)
              = pySubGo pat l fuel (pos + 1) lastEnd)) :
    (slice l pos (pos + 1) ++ pySubGo pat l fuel (pos + 1) lastEnd = []
        → l.length ≤ pos) ∧
    (slice l pos (pos + 1) ++ pySubGo pat l fuel (pos + 1) lastEnd ≠ []
        → rstrip (slice l pos (pos + 1) ++
            pySubGo pat l fuel (pos + 1) lastEnd)
          = slice l pos (pos + 1) ++
              pySubGo pat l fuel (pos + 1) lastEnd) := by
  rcases Nat.lt_or_ge pos l.length with hlt | hge
  · rw [slice_single l hlt]
    constructor
    · intro hcon
      exact absurd hcon (by simp)
    · intro _
      by_cases hcase : pySubGo pat l fuel (pos + 1) lastEnd = []
      · have hlen : l.length ≤ pos + 1 := IH.1 hcase
        have hpos_eq : pos = l.length - 1 := by omega
        subst hpos_eq
        have hchar : isPySpace (l[l.length - 1]) = false := by
          have hlast := last_not_space l hl hlne
          rw [List.getLast_eq_getElem] at hlast
          exact hlast
        rw [hcase, List.append_nil]
        have hr := rstrip_nonspace_concat [] (l[l.length - 1]) hchar
        rw [List.nil_append] at hr
        exact hr
      · have hr := IH.2 hcase
        rw [rstrip_append _ _ (by rw [hr]; exact hcase), hr]
  · constructor
    · intro _
      exact hge
    · intro _
      rw [slice_of_le l _ hge, List.nil_append]
      by_cases hcase : pySubGo pat l fuel (pos + 1) lastEnd = []
      · rw [hcase]
        rfl
      · exact IH.2 hcase

theorem pySubGo_rstrip (pat : PyPattern) (line : List Char)
    (hl : rstrip line = line) (hlne : line ≠ []) :
    ∀ fuel pos lastEnd, subFuel line pos lastEnd ≤ fuel →
      (pySubGo pat line fuel pos lastEnd = [] → line.length ≤ pos) ∧
      (pySubGo pat line fuel pos lastEnd ≠ [] →
        rstrip (pySubGo pat line fuel pos lastEnd)
          = pySubGo pat line fuel pos lastEnd) := by
  intro fuel
  induction fuel with
  | zero =>
    intro pos lastEnd hf
    have hge : line.length < pos := by
      rw [subFuel] at hf
      split at hf <;> omega
    exact ⟨fun _ => by omega,
      fun hcon => absurd (pySubGo_zero pat line pos lastEnd) hcon⟩
  | succ fuel ih =>
    intro pos lastEnd hf
    by_cases hpos : line.length < pos
    · rw [pySubGo_succ, if_pos hpos]
      exact ⟨fun _ => by omega, fun hcon => absurd rfl hcon⟩
    · have hple : pos ≤ line.length := by omega
      rcases hm : pat.matchAt line pos with _ | e
      · simp only [pySubGo_succ, if_neg hpos, hm]
        have hf' : subFuel line (pos + 1) lastEnd ≤ fuel := by
          rw [subFuel] at hf ⊢
          split at hf <;> split <;> omega
        exact copy_branch_aux pat line hl hlne fuel pos lastEnd
          (ih (pos + 1) lastEnd hf')
      · by_cases hadj : e = pos ∧ lastEnd = some pos
        · simp only [pySubGo_succ, if_neg hpos, hm, if_pos hadj]
          have hf' : subFuel line (pos + 1) lastEnd ≤ fuel := by
            obtain ⟨he, hle⟩ := hadj
            rw [subFuel] at hf ⊢
            rw [if_pos hle] at hf
            rw [if_neg (by
              rw [hle]
              intro hcon
              exact absurd (Option.some.inj hcon) (by omega))]
            omega
          exact copy_branch_aux pat line hl hlne fuel pos lastEnd
            (ih (pos + 1) lastEnd hf')
        · simp only [pySubGo_succ, if_neg hpos, hm, if_neg hadj]
          have hwf := pat.wf line pos e hm
          have hfe : subFuel line e (some e) ≤ fuel := by
            rw [subFuel] at hf ⊢
            rw [if_pos rfl]
            rcases Nat.lt_or_ge pos e with hlt | hge2
            · split at hf <;> omega
            · have he : e = pos := by omega
              subst he
              have hno : ¬(lastEnd = some e) := fun hcon => hadj ⟨rfl, hcon⟩
              rw [if_neg hno] at hf
              omega
          obtain ⟨ih1, ih2⟩ := ih e (some e) hfe
          constructor
          · intro hcon
            exact absurd hcon (by simp [COLOR_SEQ])
          · intro _
            by_cases hcase : pySubGo pat line fuel e (some e) = []
            · rw [hcase, List.append_nil]
              exact rstrip_append_reset (COLOR_SEQ ++ slice line pos e)
            · have hr := ih2 hcase
              rw [rstrip_append _ _ (by rw [hr]; exact hcase), hr]

/-! ### C4: stripping markers from highlighted output vs plain output -/

theorem joinWith_three (sep a b c : List Char) :
    joinWith sep [a, b, c] = (a ++ sep ++ b ++ sep) ++ c := by
  simp [joinWith, List.append_assoc]

theorem subFuel_zero_le (l : List Char) :
    subFuel l 0 none ≤ 2 * (l.length + 2) := by
  rw [subFuel]
  rw [if_neg (fun hcon => Option.noConfusion hcon)]
  omega

/--
C4 (amended): for every line with a non-empty match set, provided the line
is non-empty, carries no trailing whitespace (so that the final `rstrip`
removes the same suffix from both renderings) and neither the line nor the
source name contains the ESC character (so that exactly the injected marker
sequences are stripped), removing all injected marker escape sequences from
`HighlightedOutput.show_line`'s output yields exactly the Plain-mode output
for that line.
-/
theorem highlighted_strip_eq_plain (pat : PyPattern) (line f_name : List Char)
    (line_no : Nat) (hne : finditer pat line ≠ [])
    (hnil : line ≠ []) (hrs : rstrip line = line)
    (hfesc : ∀ c ∈ f_name, c ≠ escChar) (hlesc : ∀ c ∈ line, c ≠ escChar) :
    stripMarkers (HighlightedOutput.show_line pat f_name line_no
        (finditer pat line))
      = PlainOutput.show_line f_name line_no (finditer pat line) := by
  have hstr : ((finditer pat line).headD MatchObj.dflt).string = line :=
    (finditer_bounds pat line _ (headD_mem _ hne)).2.2
  simp only [HighlightedOutput.show_line, PlainOutput.show_line, hstr]
  rw [joinWith_three, joinWith_three]
  set pfx := f_name ++ " ".toList ++ fmt4 line_no ++ " ".toList with hpfx
  have hpfx_esc : ∀ c ∈ pfx, c ≠ escChar := by
    intro c hc
    rw [hpfx] at hc
    have hsp : " ".toList = [spChar] := by decide
    rcases List.mem_append.mp hc with hc | hc
    · rcases List.mem_append.mp hc with hc | hc
      · rcases List.mem_append.mp hc with hc | hc
        · exact hfesc c hc
        · rw [hsp, List.mem_singleton] at hc
          subst hc
          decide
      · exact fmt4_ne_esc line_no c hc
    · rw [hsp, List.mem_singleton] at hc
      subst hc
      decide
  obtain ⟨hH1, hH2⟩ := pySubGo_rstrip pat line hrs hnil
    (2 * (line.length + 2)) 0 none (subFuel_zero_le line)
  have hHne : pySub pat line ≠ [] := by
    rw [pySub]
    intro hcon
    have hlen := hH1 hcon
    exact hnil (List.length_eq_zero.mp (by omega))
  have hHr : rstrip (pySub pat line) = pySub pat line := by
    rw [pySub]
    exact hH2 (by rw [pySub] at hHne; exact hHne)
  rw [rstrip_append pfx (pySub pat line) (by rw [hHr]; exact hHne), hHr]
  rw [rstrip_append pfx line (by rw [hrs]; exact hnil), hrs]
  rw [stripMarkers_append_free pfx _ hpfx_esc]
  have hcore : stripMarkers (pySub pat line) = line := by
    rw [pySub, pySubGo_strip pat line hlesc (2 * (line.length + 2)) 0 none
      (subFuel_zero_le line), List.drop_zero]
  rw [hcore]

/-- Witness for the amended C4 at a concrete pattern and line. -/
theorem highlighted_strip_eq_plain_witness :
    stripMarkers (HighlightedOutput.show_line (litMatcher "ab".toList)
        "f".toList 3 (finditer (litMatcher "ab".toList) "xaby".toList))
      = PlainOutput.show_line "f".toList 3
          (finditer (litMatcher "ab".toList) "xaby".toList) :=
  highlighted_strip_eq_plain (litMatcher "ab".toList) "xaby".toList
    "f".toList 3 (by decide) (by decide) (by decide) (by decide) (by decide)

/--
Counterexample to C4 as stated: for the pattern `" "` (a single space) on
the line `"ab \n"`, the match covers trailing whitespace; the final
`rstrip` removes that whitespace from the Plain rendering but in the
highlighted rendering it is protected by the trailing `RESET_SEQ` marker,
so stripping the markers leaves a trailing space that Plain mode does not
have.
-/
theorem highlighted_strip_ne_plain :
    finditer (litMatcher " ".toList) "ab \n".toList ≠ [] ∧
      stripMarkers (HighlightedOutput.show_line (litMatcher " ".toList)
          "f".toList 3 (finditer (litMatcher " ".toList) "ab \n".toList))
        ≠ PlainOutput.show_line "f".toList 3
            (finditer (litMatcher " ".toList) "ab \n".toList) := by
  decide

/-! ### Underscore mode -/

/-- `occurencies`: the flattened span boundaries with 0 inserted in front. -/
def occurencies (ms : List MatchObj) : List Nat :=
  0 :: (ms.map fun m => [m.start, m.stop]).flatten

/-- `lengths_of_matches`: successive differences of the boundary list. -/
def lengths_of_matches (occ : List Nat) : List Nat :=
  List.zipWith (fun a b => b - a) occ occ.tail

/-- The alternating runs (`i % 2` even: spaces, odd: marker characters). -/
def runs : List Nat → Bool → List Char
  | [], _ => []
  | k :: rest, false => List.replicate k spChar ++ runs rest true
  | k :: rest, true => List.replicate k UNDERSCORE_CHARACTER ++ runs rest false

/-- The `underlines` string built by `UnderscoreOutput.show_line`. -/
def underlines (ms : List MatchObj) : List Char :=
  runs (lengths_of_matches (occurencies ms)) false

/-- `line_prefix = ' '.join([f_name, '{:4d}'.format(line_no), ''])`. -/
def line_pref (f_name : List Char) (line_no : Nat) : List Char :=
  joinWith " ".toList [f_name, fmt4 line_no, []]

/-- The full (unwrapped) marker line: `underline_prefix + underlines`. -/
def markerLine (f_name : List Char) (line_no : Nat) (ms : List MatchObj) :
    List Char :=
  List.replicate (line_pref f_name line_no).length spChar ++ underlines ms

/-- The end offset of the last span (0 when there is none). -/
def lastStop (ms : List MatchObj) : Nat := (ms.map MatchObj.stop).getLastD 0

/-- Reference painting of the marker line, span by span. -/
def paint (pos : Nat) : List MatchObj → List Char
  | [] => []
  | m :: rest =>
    List.replicate (m.start - pos) spChar ++
      (List.replicate (m.stop - m.start) UNDERSCORE_CHARACTER ++
        paint m.stop rest)

theorem lengths_cons2 (a b : Nat) (t : List Nat) :
    lengths_of_matches (a :: b :: t) = (b - a) :: lengths_of_matches (b :: t)
  := rfl

theorem runs_cons_false (k : Nat) (t : List Nat) :
    runs (k :: t) false = List.replicate k spChar ++ runs t true := rfl

theorem runs_cons_true (k : Nat) (t : List Nat) :
    runs (k :: t) true =
      List.replicate k UNDERSCORE_CHARACTER ++ runs t false := rfl

theorem paint_cons (pos : Nat) (m : MatchObj) (rest : List MatchObj) :
    paint pos (m :: rest) =
      List.replicate (m.start - pos) spChar ++
        (List.replicate (m.stop - m.start) UNDERSCORE_CHARACTER ++
          paint m.stop rest) := rfl

theorem runs_eq_paint : ∀ (ms : List MatchObj) (pos : Nat),
    runs (lengths_of_matches
        (pos :: (ms.map fun m => [m.start, m.stop]).flatten)) false
      = paint pos ms := by
  intro ms
  induction ms with
  | nil => intro pos; rfl
  | cons m rest ih =>
    intro pos
    have h1 : (((m :: rest).map fun x => [x.start, x.stop]).flatten)
        = m.start :: m.stop :: ((rest.map fun x => [x.start, x.stop]).flatten)
      := by simp
    rw [h1, lengths_cons2, lengths_cons2, runs_cons_false, runs_cons_true,
      ih m.stop, paint_cons]

theorem le_getLastD {l : List Nat} {d pos : Nat} (hd : pos ≤ d)
    (h : ∀ x ∈ l, pos ≤ x) : pos ≤ l.getLastD d := by
  induction l generalizing d with
  | nil => exact hd
  | cons a t ih =>
    rw [List.getLastD_cons]
    exact ih (h a (List.mem_cons_self a t))
      (fun x hx => h x (List.mem_cons_of_mem a hx))

theorem paint_length : ∀ (ms : List MatchObj) (pos : Nat),
    (∀ m ∈ ms, pos ≤ m.start ∧ m.start ≤ m.stop) →
    List.Pairwise (fun a b => a.start < b.start ∧ a.stop ≤ b.start) ms →
    (paint pos ms).length = (ms.map MatchObj.stop).getLastD pos - pos := by
  intro ms
  induction ms with
  | nil => intro pos _ _; simp [paint]
  | cons m rest ih =>
    intro pos hb hp
    obtain ⟨hm, hrest⟩ := List.pairwise_cons.mp hp
    obtain ⟨h1, h2⟩ := hb m (List.mem_cons_self m rest)
    have hrec := ih m.stop
      (fun x hx => ⟨(hm x hx).2, (hb x (List.mem_cons_of_mem m hx)).2⟩)
      hrest
    have hlb : m.stop ≤ (rest.map MatchObj.stop).getLastD m.stop := by
      refine le_getLastD (le_refl _) ?_
      intro x hx
      obtain ⟨m', hm', rfl⟩ := List.mem_map.mp hx
      have ha := (hm m' hm').2
      have hc := (hb m' (List.mem_cons_of_mem m hm')).2
      omega
    rw [paint_cons, List.map_cons, List.getLastD_cons]
    simp only [List.length_append, List.length_replicate]
    omega

theorem paint_getD : ∀ (ms : List MatchObj) (pos j : Nat),
    (∀ m ∈ ms, pos ≤ m.start ∧ m.start ≤ m.stop) →
    List.Pairwise (fun a b => a.start < b.start ∧ a.stop ≤ b.start) ms →
    (paint pos ms).getD j spChar
      = if ∃ m ∈ ms, m.start ≤ pos + j ∧ pos + j < m.stop then
          UNDERSCORE_CHARACTER
        else spChar := by
  intro ms
  induction ms with
  | nil =>
    intro pos j _ _
    simp [paint]
  | cons m rest ih =>
    intro pos j hb hp
    obtain ⟨hm, hrest⟩ := List.pairwise_cons.mp hp
    obtain ⟨h1, h2⟩ := hb m (List.mem_cons_self m rest)
    have hb' : ∀ x ∈ rest, m.stop ≤ x.start ∧ x.start ≤ x.stop :=
      fun x hx => ⟨(hm x hx).2, (hb x (List.mem_cons_of_mem m hx)).2⟩
    rw [paint_cons]
    rcases Nat.lt_or_ge j (m.start - pos) with hj | hj
    · rw [List.getD_append _ _ _ _ (by rw [List.length_replicate]; omega),
        List.getD_eq_getElem _ _ (by rw [List.length_replicate]; omega),
        List.getElem_replicate]
      have hno : ¬∃ x ∈ m :: rest, x.start ≤ pos + j ∧ pos + j < x.stop := by
        rintro ⟨x, hx, hx1, hx2⟩
        rcases List.mem_cons.mp hx with rfl | hx
        · omega
        · have := (hm x hx).1
          omega
      rw [if_neg hno]
    · rw [List.getD_append_right _ _ _ _
        (by rw [List.length_replicate]; omega)]
      simp only [List.length_replicate]
      rcases Nat.lt_or_ge (j - (m.start - pos)) (m.stop - m.start) with
        hj2 | hj2
      · rw [List.getD_append _ _ _ _ (by rw [List.length_replicate]; omega),
          List.getD_eq_getElem _ _ (by rw [List.length_replicate]; omega),
          List.getElem_replicate]
        have hyes : ∃ x ∈ m :: rest, x.start ≤ pos + j ∧ pos + j < x.stop :=
          ⟨m, List.mem_cons_self m rest, by omega, by omega⟩
        rw [if_pos hyes]
      · rw [List.getD_append_right _ _ _ _
          (by rw [List.length_replicate]; omega)]
        simp only [List.length_replicate]
        have hj' : j - (m.start - pos) - (m.stop - m.start)
            = j - (m.stop - pos) := by omega
        rw [hj', ih m.stop (j - (m.stop - pos)) hb' hrest]
        have harg : m.stop + (j - (m.stop - pos)) = pos + j := by omega
        rw [harg]
        have hiff : (∃ x ∈ rest, x.start ≤ pos + j ∧ pos + j < x.stop) ↔
            (∃ x ∈ m :: rest, x.start ≤ pos + j ∧ pos + j < x.stop) := by
          constructor
          · rintro ⟨x, hx, hxx⟩
            exact ⟨x, List.mem_cons_of_mem m hx, hxx⟩
          · rintro ⟨x, hx, hxx⟩
            rcases List.mem_cons.mp hx with rfl | hx
            · exact absurd hxx.2 (by omega)
            · exact ⟨x, hx, hxx⟩
        simp only [hiff]

/--
C5: underscore mode — for every line, the conceptual (unwrapped) marker
line produced by `UnderscoreOutput.show_line` is the content prefix's width
in spaces followed by the `underlines` string, whose length is the last
span's end and which carries the marker character at exactly the indices
covered by some span and a space at every other index.
-/
theorem underscore_marker_line (pat : PyPattern) (line f_name : List Char)
    (line_no : Nat) :
    markerLine f_name line_no (finditer pat line)
        = List.replicate (line_pref f_name line_no).length spChar ++
            underlines (finditer pat line)
      ∧ (underlines (finditer pat line)).length = lastStop (finditer pat line)
      ∧ ∀ j, (underlines (finditer pat line)).getD j spChar
          = if ∃ m ∈ finditer pat line, m.start ≤ j ∧ j < m.stop then
              UNDERSCORE_CHARACTER
            else spChar := by
  have hspec := finditerGo_spec pat line (line.length + 2) 0
  have hb : ∀ m ∈ finditer pat line, 0 ≤ m.start ∧ m.start ≤ m.stop :=
    fun m hm => ⟨Nat.zero_le _, (hspec.1 m hm).2.1⟩
  have hp : List.Pairwise (fun a b => a.start < b.start ∧ a.stop ≤ b.start)
      (finditer pat line) := hspec.2.1
  have hu : underlines (finditer pat line) = paint 0 (finditer pat line) := by
    simp only [underlines, occurencies]
    exact runs_eq_paint (finditer pat line) 0
  refine ⟨rfl, ?_, ?_⟩
  · rw [hu, paint_length (finditer pat line) 0 hb hp, lastStop,
      Nat.sub_zero]
  · intro j
    rw [hu, paint_getD (finditer pat line) 0 j hb hp]
    simp only [Nat.zero_add]

/-! ### C6: terminal width probing -/

/--
`UnderscoreOutput._terminal_size`: unpack the result of
`fcntl.ioctl(1, termios.TIOCGWINSZ, ...)` as `(h, w, hp, wp)` and return
`(w, h)`.  The ioctl is an external platform facility; its outcome is
passed in as an `Except` value, `.error` modelling the `IOError` raised
when standard output is not an interactive terminal.  The source has no
exception handler here, so an error propagates.
-/
def terminal_size (ioctl : Except Unit (Nat × Nat)) :
    Except Unit (Nat × Nat) :=
  match ioctl with
  | Except.ok (h, w) => Except.ok (w, h)
  | Except.error e => Except.error e

/-- `UnderscoreOutput.__init__`: `self.width, _ = self._terminal_size()`. -/
def UnderscoreOutput.width (ioctl : Except Unit (Nat × Nat)) :
    Except Unit Nat :=
  match terminal_size ioctl with
  | Except.ok (w, _) => Except.ok w
  | Except.error e => Except.error e

/--
C6: the code has no fallback — when the ioctl fails (standard output is not
an interactive terminal), constructing `UnderscoreOutput` propagates the
error instead of falling back to a default width such as 80; on success the
width is exactly the terminal's reported column count.
-/
theorem underscore_width_no_fallback :
    UnderscoreOutput.width (Except.error ()) = Except.error () ∧
      (∀ d : Nat, UnderscoreOutput.width (Except.error ()) ≠ Except.ok d) ∧
      ∀ h w : Nat, UnderscoreOutput.width (Except.ok (h, w)) = Except.ok w := by
  refine ⟨rfl, ?_, fun h w => rfl⟩
  intro d hcon
  exact Except.noConfusion hcon

/-! ### The __main__ driver: exit codes -/

/-- `print "Error. File not found: %s. Exiting" % fileinput.filename()`. -/
def ioMsg (name : List Char) : List Char :=
  "Error. File not found: ".toList ++ name ++ ". Exiting".toList

/-- `print 'Invalid regular expression: "%s". Exiting' % regexp`. -/
def invalidReMsg (r : List Char) : List Char :=
  "Invalid regular expression: \"".toList ++ r ++ "\". Exiting".toList

/-- The type of `out.show`: source name, line number and matches to
printed lines.  The renderer is selected once by `Output.__init__` from the
mutually exclusive flags; the driver's control flow does not depend on it. -/
def ShowFn : Type := List Char → Nat → List MatchObj → List (List Char)

/--
The per-source slice of the `fileinput` loop (lines 181-184): 1-based
per-source line numbers; a line is shown exactly when its match list is
non-empty.
-/
def processLines (pat : PyPattern) (showFn : ShowFn) (name : List Char) :
    Nat → List (List Char) → List (List Char)
  | _, [] => []
  | i, l :: rest =>
    (if finditer pat l = [] then [] else showFn name i (finditer pat l)) ++
      processLines pat showFn name (i + 1) rest

/--
The `fileinput` loop with its `IOError` handler (lines 180-187): sources in
order; a source that fails to open prints the error message and terminates
the run with status 1, output already written standing; otherwise scanning
continues and the loop completes with status 0.  Each source is a name
together with either its list of lines or an opening error.
-/
def scanSources (pat : PyPattern) (showFn : ShowFn) :
    List (List Char × Except Unit (List (List Char))) →
      List (List Char) × Nat
  | [] => ([], 0)
  | (name, Except.error _) :: _ => ([ioMsg name], 1)
  | (name, Except.ok ls) :: rest =>
    let r := scanSources pat showFn rest
    (processLines pat showFn name 1 ls ++ r.1, r.2)

/--
`__main__` (lines 151-187): check the mutually exclusive flags and the
mandatory pattern argument (`parser.error` exits with optparse's documented
status 2, printing to standard error only, hence the empty output), compile
the pattern (`re.compile` is the external engine; its outcome is the
`compile` argument, tried before any source is opened), then scan the
sources.  The first component is what is printed to standard output, the
second the exit status.
-/
def mainModel (u c m : Bool) (args : List (List Char))
    (compile : Except Unit PyPattern) (showFn : ShowFn)
    (sources : List (List Char × Except Unit (List (List Char)))) :
    List (List Char) × Nat :=
  if 1 < u.toNat + c.toNat + m.toNat then ([], 2)
  else if args.length < 1 then ([], 2)
  else
    match compile with
    | Except.error _ => ([invalidReMsg (args.headD [])], 2)
    | Except.ok pat => scanSources pat showFn sources

theorem scanSources_nil (pat : PyPattern) (showFn : ShowFn) :
    scanSources pat showFn [] = ([], 0) := rfl

theorem scanSources_cons_err (pat : PyPattern) (showFn : ShowFn)
    (name : List Char) (e : Unit)
    (rest : List (List Char × Except Unit (List (List Char)))) :
    scanSources pat showFn ((name, Except.error e) :: rest)
      = ([ioMsg name], 1) := rfl

theorem scanSources_cons_ok (pat : PyPattern) (showFn : ShowFn)
    (name : List Char) (ls : List (List Char))
    (rest : List (List Char × Except Unit (List (List Char)))) :
    scanSources pat showFn ((name, Except.ok ls) :: rest)
      = (processLines pat showFn name 1 ls ++ (scanSources pat showFn rest).1,
          (scanSources pat showFn rest).2) := rfl

theorem scanSources_all_ok (pat : PyPattern) (showFn : ShowFn) :
    ∀ sources, (∀ s ∈ sources, ∃ ls, s.2 = Except.ok ls) →
      (scanSources pat showFn sources).2 = 0 := by
  intro sources
  induction sources with
  | nil => intro _; rfl
  | cons s rest ih =>
    intro hok
    obtain ⟨name, content⟩ := s
    obtain ⟨ls, hls⟩ := hok (name, content) (List.mem_cons_self _ _)
    have hcontent : content = Except.ok ls := hls
    subst hcontent
    rw [scanSources_cons_ok]
    exact ih (fun x hx => hok x (List.mem_cons_of_mem _ hx))

theorem scanSources_fail (pat : PyPattern) (showFn : ShowFn) :
    ∀ (good : List (List Char × List (List Char))) (bad : List Char)
      (rest : List (List Char × Except Unit (List (List Char)))),
      scanSources pat showFn ((good.map fun g => (g.1, Except.ok g.2)) ++
          (bad, Except.error ()) :: rest)
        = ((good.map fun g => processLines pat showFn g.1 1 g.2).flatten
            ++ [ioMsg bad], 1) := by
  intro good
  induction good with
  | nil =>
    intro bad rest
    simp only [List.map_nil, List.nil_append, List.flatten_nil]
    rw [scanSources_cons_err]
  | cons g gs ih =>
    intro bad rest
    simp only [List.map_cons, List.cons_append]
    rw [scanSources_cons_ok, ih bad rest]
    simp [List.append_assoc]

/--
C7: exit codes — the program terminates with status 0 on success; with
status 1 when an input source could not be opened (after reporting the
offending source, with the output of earlier sources left standing); and
with status 2 when the pattern fails to compile, reported before any source
is opened (the output then consists of the error message only, whatever the
sources are).
-/
theorem main_exit_codes (u c m : Bool) (args : List (List Char))
    (showFn : ShowFn) (pat : PyPattern)
    (sources : List (List Char × Except Unit (List (List Char))))
    (hflag : u.toNat + c.toNat + m.toNat ≤ 1) (hargs : args ≠ []) :
    mainModel u c m args (Except.error ()) showFn sources
        = ([invalidReMsg (args.headD [])], 2)
      ∧ ((∀ s ∈ sources, ∃ ls, s.2 = Except.ok ls) →
          (mainModel u c m args (Except.ok pat) showFn sources).2 = 0)
      ∧ ∀ (good : List (List Char × List (List Char))) (bad : List Char)
          (rest : List (List Char × Except Unit (List (List Char)))),
          sources = (good.map fun g => (g.1, Except.ok g.2)) ++
              (bad, Except.error ()) :: rest →
          mainModel u c m args (Except.ok pat) showFn sources
            = ((good.map fun g => processLines pat showFn g.1 1 g.2).flatten
                ++ [ioMsg bad], 1) := by
  have hif1 : ¬(1 < u.toNat + c.toNat + m.toNat) := by omega
  have hif2 : ¬(args.length < 1) := by
    cases args with
    | nil => exact absurd rfl hargs
    | cons a t => simp
  refine ⟨?_, ?_, ?_⟩
  · simp only [mainModel]
    rw [if_neg hif1, if_neg hif2]
  · intro hok
    simp only [mainModel]
    rw [if_neg hif1, if_neg hif2]
    exact scanSources_all_ok pat showFn sources hok
  · intro good bad rest hsrc
    simp only [mainModel]
    rw [if_neg hif1, if_neg hif2, hsrc]
    exact scanSources_fail pat showFn good bad rest

/-- Witness for C7 at concrete flags, pattern and sources. -/
theorem main_exit_codes_witness :
    mainModel false false false ["a".toList]
        (Except.ok (litMatcher "a".toList)) MachineOutput.show_line
        [("s".toList, Except.ok ["xa".toList]),
          ("t".toList, Except.error ())]
      = (([(("s".toList : List Char), ["xa".toList])].map fun g =>
            processLines (litMatcher "a".toList) MachineOutput.show_line
              g.1 1 g.2).flatten ++ [ioMsg "t".toList], 1) :=
  (main_exit_codes false false false ["a".toList] MachineOutput.show_line
      (litMatcher "a".toList)
      [("s".toList, Except.ok ["xa".toList]), ("t".toList, Except.error ())]
      (by decide) (by decide)).2.2
    [("s".toList, ["xa".toList])] "t".toList [] rfl

/--
C9: when more than one of the mutually exclusive options is set, or the
mandatory pattern argument is missing, the program exits with status 2 via
the option parser's error path, before compiling the pattern or opening any
input source: the result is the same whatever the compilation outcome and
the sources, and nothing is written to standard output.
-/
theorem usage_errors_exit_2 (u c m : Bool) (args : List (List Char))
    (compile compile' : Except Unit PyPattern) (showFn showFn' : ShowFn)
    (sources sources' : List (List Char × Except Unit (List (List Char))))
    (h : 1 < u.toNat + c.toNat + m.toNat ∨ args = []) :
    mainModel u c m args compile showFn sources = ([], 2) ∧
      mainModel u c m args compile showFn sources
        = mainModel u c m args compile' showFn' sources' := by
  have key : ∀ (cp : Except Unit PyPattern) (sf : ShowFn)
      (src : List (List Char × Except Unit (List (List Char)))),
      mainModel u c m args cp sf src = ([], 2) := by
    intro cp sf src
    rcases h with h | h
    · simp only [mainModel]
      rw [if_pos h]
    · subst h
      simp only [mainModel]
      by_cases hflag : 1 < u.toNat + c.toNat + m.toNat
      · rw [if_pos hflag]
      · rw [if_neg hflag, if_pos (by simp)]
  exact ⟨key _ _ _, by rw [key, key]⟩

/-- Witness for C9 at a concrete flag combination. -/
theorem usage_errors_exit_2_witness :
    mainModel true true false ["a".toList]
        (Except.ok (litMatcher "a".toList)) MachineOutput.show_line []
      = ([], 2) :=
  (usage_errors_exit_2 true true false ["a".toList]
      (Except.ok (litMatcher "a".toList)) (Except.error ())
      MachineOutput.show_line MachineOutput.show_line [] []
      (Or.inl (by decide))).1
